import Mathlib

/-!
Verification of the OpenRQ installer core (main.go) against its
natural-language specification.

The Go source is shallowly embedded: paths are Lean strings, the
filesystem is a record of pure maps, fallible operations return a pair
of the updated state and an optional error, and the stateful extraction
loop is a trace-producing function.  Machine details that the claims do
not touch (real I/O faults, permission checks, float rounding of the
progress value) are noted at the definition they would affect; progress
fractions are modelled over the rationals.
-/

/-! ## Path model: Go path/filepath Clean and Join for slash paths

Go's filepath.Join(output, name) is Clean(output + "/" + name).  Clean
works lexically on slash-separated elements: empty and "." elements are
dropped, ".." pops the previous element (at the root, ".." is dropped;
in a relative path with nothing to pop, ".." is kept).  The embedding
splits a string on the slash character, folds the element rules, and
renders the result.
-/

/-- Splits a character list on the slash character, accumulating the
current fragment in reverse. -/
def splitSlashAux : List Char → List Char → List String
  | [], acc => [String.mk acc.reverse]
  | c :: cs, acc =>
    if c = '/' then String.mk acc.reverse :: splitSlashAux cs []
    else splitSlashAux cs (c :: acc)

/-- Splits a string into its slash-separated fragments (fragments may be
empty, as in a rooted path or a doubled slash). -/
def splitSlash (s : String) : List String :=
  splitSlashAux s.data []

/-- One step of Go's Clean over path elements. The accumulator holds the
output elements in reverse order. -/
def cleanStep (rooted : Bool) (acc : List String) (c : String) : List String :=
  if c = "" ∨ c = "." then acc
  else if c = ".." then
    match acc with
    | [] => if rooted then [] else [".."]
    | top :: rest => if top = ".." then c :: top :: rest else rest
  else c :: acc

/-- The element list produced by Go's Clean from a raw element list. -/
def cleanComps (rooted : Bool) (cs : List String) : List String :=
  (cs.foldl (cleanStep rooted) []).reverse

/-- Renders an element list with slashes between elements. -/
def renderComps : List String → String
  | [] => ""
  | c :: cs => cs.foldl (fun a b => a ++ "/" ++ b) c

/-- Whether a path string is rooted (starts with a slash). -/
def isAbsPath (s : String) : Bool :=
  match s.data with
  | [] => false
  | c :: _ => c = '/'

/-- Go's filepath.Clean for slash-separated paths. -/
def goClean (s : String) : String :=
  let rooted := isAbsPath s
  let cs := cleanComps rooted (splitSlash s)
  if rooted then "/" ++ renderComps cs
  else if cs = [] then "." else renderComps cs

/-- Go's filepath.Join of two elements: concatenation with a slash,
then Clean; empty elements are skipped (source: main.go line 107 uses
filepath.Join(output, file.Name)). -/
def goJoin (a b : String) : String :=
  if a = "" then goClean b
  else if b = "" then goClean a
  else goClean (a ++ "/" ++ b)

/-- The cleaned element list of a path string. -/
def pathComps (s : String) : List String :=
  cleanComps (isAbsPath s) (splitSlash s)

/-- Go's filepath.Dir on an already-clean path: all elements but the
last, rendered with the rootedness of the input. -/
def dirname (p : String) : String :=
  let cs := (pathComps p).dropLast
  if isAbsPath p then "/" ++ renderComps cs
  else if cs = [] then "." else renderComps cs

/-- Boolean test that the first element list is an initial segment of
the second. -/
def isInitSeg : List String → List String → Bool
  | [], _ => true
  | _ :: _, [] => false
  | a :: as, b :: bs => if a = b then isInitSeg as bs else false

/-- A path p lies inside the tree rooted at dest when they agree on
rootedness and dest's cleaned elements lead off p's cleaned elements. -/
def isDescendant (dest p : String) : Bool :=
  (isAbsPath dest == isAbsPath p) && isInitSeg (pathComps dest) (pathComps p)

example : goClean "/dest/../evil" = "/evil" := by decide
example : goJoin "/dest" "../evil" = "/evil" := by decide
example : goJoin "/tmp/out" "assets/readme.txt" = "/tmp/out/assets/readme.txt" := by decide
example : goJoin "a" "b" = "a/b" := by decide
example : goClean "a/../../b" = "../b" := by decide
example : dirname "/tmp/out/assets/readme.txt" = "/tmp/out/assets" := by decide
example : isDescendant "/dest" "/evil" = false := by decide
example : isDescendant "/tmp/out/" "/tmp/out/assets/readme.txt" = true := by decide

/-! ## PathResolver: install path and shortcut location (main.go 59-73, 219-230) -/

/-- The application name constant (main.go line 24). -/
def appName : String := "OpenRQ"

/-- GetInstallPath (main.go 59-73), as a pure function of the runtime
OS identifier and the resolved username.  The switch matches the Go
source: windows and linux format a per-user directory, darwin returns a
fixed path, and the default formats the pattern with the username and
the application name. -/
def GetInstallPath (goos username : String) : String :=
  if goos = "windows" then "C:/Users/" ++ username ++ "/AppData/Local/" ++ appName ++ "/"
  else if goos = "linux" then "/home/" ++ username ++ "/.local/share/" ++ appName ++ "/"
  else if goos = "darwin" then "/Applications/" ++ appName ++ "/"
  else username ++ "/" ++ appName ++ "/"

/-- The install-directory resolver as the specification words it, kept
for comparison with the source definition: the spec's default fallback
is the application name under the current working directory. -/
def specResolveInstallDir (goos username cwd : String) : String :=
  if goos = "windows" then "C:/Users/" ++ username ++ "/AppData/Local/" ++ appName ++ "/"
  else if goos = "linux" then "/home/" ++ username ++ "/.local/share/" ++ appName ++ "/"
  else if goos = "darwin" then "/Applications/" ++ appName ++ "/"
  else cwd ++ "/" ++ appName ++ "/"

/-- GetShortcutLocation (main.go 219-230): a desktop file on linux
(with the application name lowercased, as strings.ToLower does), a
Start Menu link on windows, and the empty string otherwise. -/
def GetShortcutLocation (goos username : String) : String :=
  if goos = "linux" then
    "/home/" ++ username ++ "/.local/share/applications/" ++
      String.mk (appName.data.map Char.toLower) ++ ".desktop"
  else if goos = "windows" then
    "C:/Users/" ++ username ++ "/AppData/Roaming/Microsoft/Windows/Start Menu/Programs/" ++
      appName ++ ".lnk"
  else ""

example : String.mk (appName.data.map Char.toLower) = "openrq" := by decide
example : GetInstallPath "plan9" "alice" = "alice/OpenRQ/" := by decide
example : GetShortcutLocation "darwin" "alice" = "" := by decide
example : GetShortcutLocation "linux" "alice" =
    "/home/alice/.local/share/applications/openrq.desktop" := by decide

/-! ## ArchiveExtractor state model (main.go 87-153)

An archive entry carries the fields of a zip.File that Extract reads:
its name, its directory flag, its permission mode and its byte content.
The filesystem is a pure record: a set of existing directories and a
partial map from paths to file contents.  Faults that the claims do not
quantify over (permission errors, disk full, read errors) are outside
the model; the one failure the model keeps is the open of a file whose
parent directory does not exist, which is the failure mode claim C7 is
about. -/

structure Entry where
  name : String
  isDir : Bool
  mode : Nat
  content : String
deriving DecidableEq

structure FS where
  isDir : String → Bool
  fileContent : String → Option String

/-- os.MkdirAll: afterwards the given path and every leading portion of
it exist as directories; existing directories are untouched
(idempotent). -/
def mkdirAll (p : String) (fs : FS) : FS :=
  { fs with isDir := fun q =>
      fs.isDir q || (isInitSeg (pathComps q) (pathComps p) && (isAbsPath q == isAbsPath p)) }

inductive ExtractErr
  | missingParent
deriving DecidableEq

/-- The extractAndWrite helper (main.go 94-138): the full output path is
filepath.Join(output, file.Name); a directory entry is MkdirAll-ed with
the entry's mode; a file entry first MkdirAll-s the parent directory
with the entry's mode, then opens the output file with O_CREATE and
O_TRUNC (an open that fails when the parent directory is missing) and
copies the entry content into it, replacing any previous content. -/
def extractAndWrite (output : String) (e : Entry) (fs : FS) : FS × Option ExtractErr :=
  let path := goJoin output e.name
  if e.isDir then (mkdirAll path fs, none)
  else
    let fs1 := mkdirAll (dirname path) fs
    if fs1.isDir (dirname path) then
      ({ fs1 with fileContent := fun q => if q = path then some e.content else fs1.fileContent q },
        none)
    else (fs1, some ExtractErr.missingParent)

/-- The extraction loop over all entries (main.go 140-150): entries are
processed in archive order and the loop stops at the first failing
entry. -/
def extractAll (output : String) : List Entry → FS → FS × Option ExtractErr
  | [], fs => (fs, none)
  | e :: rest, fs =>
    let r := extractAndWrite output e fs
    match r.2 with
    | none => extractAll output rest r.1
    | some err => (r.1, some err)

/-- The filesystem operations extractAndWrite issues for one entry, with
the mode argument each call receives (main.go 109-134). -/
inductive FsOp
  | mkdirAllOp : String → Nat → FsOp
  | openFileOp : String → Nat → FsOp
  | copyDataOp : FsOp
deriving DecidableEq

/-- Operation trace of extractAndWrite for one entry: a directory entry
is a single MkdirAll with the entry's mode; a file entry is MkdirAll of
the parent with the entry's mode, then the open of the output file with
the entry's mode, then the content copy. -/
def extractEntryOps (output : String) (e : Entry) : List FsOp :=
  let path := goJoin output e.name
  if e.isDir then [FsOp.mkdirAllOp path e.mode]
  else [FsOp.mkdirAllOp (dirname path) e.mode, FsOp.openFileOp path e.mode, FsOp.copyDataOp]

/-! ## Extraction progress trace (main.go 140-150)

The loop body at index i first calls progress.SetValue((i+1)/N) and
then attempts to extract entry i, returning on failure.  The trace
records both kinds of step in order; ok says whether extracting entry i
succeeds.  The Go code divides float64 values; the claims about the
reported fractions are modelled over the rationals. -/

inductive ExtractEvent
  | progress : Nat → Nat → ExtractEvent
  | process : Nat → Bool → ExtractEvent
deriving DecidableEq

/-- The loop from index i with r iterations remaining out of n. -/
def extractGo (ok : Nat → Bool) (n : Nat) : Nat → Nat → List ExtractEvent
  | 0, _ => []
  | r + 1, i =>
    ExtractEvent.progress (i + 1) n :: ExtractEvent.process i (ok i) ::
      (if ok i then extractGo ok n r (i + 1) else [])

/-- The event trace of one run of the extraction loop over n entries. -/
def extractTrace (n : Nat) (ok : Nat → Bool) : List ExtractEvent :=
  extractGo ok n n 0

/-- The sequence of fractions reported to the progress bar, in order. -/
def progressValues (t : List ExtractEvent) : List ℚ :=
  t.filterMap fun e =>
    match e with
    | ExtractEvent.progress a b => some (((a : Nat) : ℚ) / ((b : Nat) : ℚ))
    | ExtractEvent.process _ _ => none

/-- The fraction sequence (i+1)/n, (i+2)/n, ... of length r. -/
def fracSeq (n : Nat) : Nat → Nat → List ℚ
  | 0, _ => []
  | r + 1, i => (((i + 1 : Nat) : ℚ) / ((n : Nat) : ℚ)) :: fracSeq n (r) (i + 1)

/-- Entry oracle under which every entry extracts successfully. -/
def allOk : Nat → Bool := fun _ => true

/-- Entry oracle under which every entry fails to extract. -/
def allFail : Nat → Bool := fun _ => false

/-- Strict order on rationals, named so statements can mention it. -/
def ratLT (a b : ℚ) : Prop := a < b

/-- Weak order on rationals, named so statements can mention it. -/
def ratLE (a b : ℚ) : Prop := a ≤ b

example : extractTrace 2 allOk =
    [ExtractEvent.progress 1 2, ExtractEvent.process 0 true,
     ExtractEvent.progress 2 2, ExtractEvent.process 1 true] := by decide
example : progressValues (extractTrace 2 allOk) = [1/2, 1] := by
  norm_num [progressValues, extractTrace, extractGo, allOk, List.filterMap_cons]

/-! ## Copy (main.go 165-202)

Copy first opens the input file (returning its error when that fails),
then stats the output path and returns nil immediately when something
already exists there, and only otherwise creates the output file and
copies the content across.  os.Create fails when the parent directory
of the output is missing; other I/O faults are outside the model. -/

inductive CopyErr
  | openFailed
  | createFailed
deriving DecidableEq

def Copy (fs : FS) (input output : String) : FS × Option CopyErr :=
  match fs.fileContent input with
  | none => (fs, some CopyErr.openFailed)
  | some content =>
    match fs.fileContent output with
    | some _ => (fs, none)
    | none =>
      if fs.isDir (dirname output) then
        ({ fs with fileContent := fun q => if q = output then some content else fs.fileContent q },
          none)
      else (fs, some CopyErr.createFailed)

/-! ## Uninstall (main.go 276-291)

os.RemoveAll returns nil when the path does not exist, so in a model
without permission faults the removal of the install directory always
succeeds.  os.Remove of the shortcut, on the other hand, fails with a
not-found error when no file exists at the path; it only runs when the
resolved shortcut location is a non-empty string. -/

inductive GoErr
  | notFound
deriving DecidableEq

/-- os.RemoveAll on a path whose presence is the given flag: nil either
way (a missing path is not an error for RemoveAll). -/
def goRemoveAll (_present : Bool) : Except GoErr Unit := Except.ok ()

/-- os.Remove on a path whose presence is the given flag: not-found
error when nothing exists there. -/
def goRemove (present : Bool) : Except GoErr Unit :=
  if present then Except.ok () else Except.error GoErr.notFound

/-- Uninstall: remove the install directory tree, then, when the
shortcut location is non-empty, remove the shortcut file.  The state of
the world is the presence predicate on paths. -/
def Uninstall (goos username : String) (present : String → Bool) : Except GoErr Unit :=
  match goRemoveAll (present (GetInstallPath goos username)) with
  | Except.error e => Except.error e
  | Except.ok _ =>
    let shortcut := GetShortcutLocation goos username
    if 0 < shortcut.length then goRemove (present shortcut)
    else Except.ok ()

/-- Presence predicate of an empty world: no path exists. -/
def noFiles : String → Bool := fun _ => false

/-- Presence predicate of a saturated world: every path exists. -/
def allFiles : String → Bool := fun _ => true

example : Uninstall "darwin" "alice" noFiles = Except.ok () := rfl
example : Uninstall "linux" "alice" noFiles = Except.error GoErr.notFound := rfl
example : Uninstall "linux" "alice" (fun _ => true) = Except.ok () := rfl

/-! ## CreateShortcut (main.go 232-273)

On darwin the function is a no-op; on linux it writes the desktop file;
on windows it writes the Visual Basic script to a temporary file, runs
it through wscript, and only then removes the script file, returning
early (without the removal) when the write or the run fails.  The
environment fixes which of these steps succeed; the trace records the
steps that were attempted, in order. -/

structure ShortcutEnv where
  writeOk : Bool
  runOk : Bool
  removeOk : Bool
deriving DecidableEq

inductive SOp
  | writeDesktopFile
  | writeScriptFile
  | runScript
  | removeScriptFile
deriving DecidableEq

/-- CreateShortcut trace and success flag, per OS and environment. -/
def CreateShortcut (goos : String) (env : ShortcutEnv) : List SOp × Bool :=
  if goos = "darwin" then ([], true)
  else if goos = "linux" then ([SOp.writeDesktopFile], env.writeOk)
  else if goos = "windows" then
    if env.writeOk = false then ([SOp.writeScriptFile], false)
    else if env.runOk = false then ([SOp.writeScriptFile, SOp.runScript], false)
    else if env.removeOk = false then
      ([SOp.writeScriptFile, SOp.runScript, SOp.removeScriptFile], false)
    else ([SOp.writeScriptFile, SOp.runScript, SOp.removeScriptFile], true)
  else ([], true)

example : (CreateShortcut "windows" ⟨true, false, true⟩).1 = [SOp.writeScriptFile, SOp.runScript] := by decide
example : (CreateShortcut "windows" ⟨true, true, true⟩).2 = true := by decide

/-! ## Basic helper lemmas -/

theorem strData_append (a b : String) : (a ++ b).data = a.data ++ b.data := by
  cases a with
  | mk d1 => cases b with
    | mk d2 => rfl

theorem strAssoc (a b c : String) : a ++ b ++ c = a ++ (b ++ c) := by
  cases a with
  | mk d1 => cases b with
    | mk d2 => cases c with
      | mk d3 =>
        show String.mk (d1 ++ d2 ++ d3) = String.mk (d1 ++ (d2 ++ d3))
        exact congrArg String.mk (List.append_assoc d1 d2 d3)

theorem strLen_append (a b : String) : (a ++ b).length = a.length + b.length := by
  show (a ++ b).data.length = a.data.length + b.data.length
  rw [strData_append]
  exact List.length_append _ _

theorem isInitSeg_refl : ∀ l : List String, isInitSeg l l = true := by
  intro l
  induction l with
  | nil => rfl
  | cons a as ih => simp [isInitSeg, ih]

theorem isInitSeg_append : ∀ l m : List String, isInitSeg l (l ++ m) = true := by
  intro l m
  induction l with
  | nil => rfl
  | cons a as ih => simp [isInitSeg, ih]

theorem mkdirAll_isDir_self (p : String) (fs : FS) : (mkdirAll p fs).isDir p = true := by
  simp [mkdirAll, isInitSeg_refl]

/-! ## Extraction state lemmas -/

theorem eaw_no_err (output : String) (e : Entry) (fs : FS) :
    (extractAndWrite output e fs).2 = none := by
  by_cases h : e.isDir = true
  · simp [extractAndWrite, h]
  · simp only [Bool.not_eq_true] at h
    simp [extractAndWrite, h, mkdirAll_isDir_self]

theorem extractAll_no_err (output : String) :
    ∀ (es : List Entry) (fs : FS), (extractAll output es fs).2 = none := by
  intro es
  induction es with
  | nil => intro fs; rfl
  | cons e rest ih =>
    intro fs
    simp [extractAll, eaw_no_err output e fs, ih]

theorem eaw_fileContent (output : String) (e : Entry) (fs : FS) (p : String) :
    (extractAndWrite output e fs).1.fileContent p =
      if e.isDir = false ∧ p = goJoin output e.name then some e.content
      else fs.fileContent p := by
  by_cases h : e.isDir = true
  · simp [extractAndWrite, h, mkdirAll]
  · simp only [Bool.not_eq_true] at h
    simp [extractAndWrite, h, mkdirAll_isDir_self, mkdirAll, isInitSeg_refl]

/-- The effect of one entry on the content stored at path p, as a fold
step: a file entry whose joined path is p replaces the content, every
other entry leaves it alone. -/
def writeUpd (output p : String) (acc : Option String) (e : Entry) : Option String :=
  if e.isDir = false ∧ p = goJoin output e.name then some e.content else acc

/-- First-of-two choice on optional contents, keeping the second when
the first is absent. -/
def orElseOpt (x a : Option String) : Option String :=
  match x with
  | some c => some c
  | none => a

theorem orElseOpt_assoc (x y a : Option String) :
    orElseOpt (orElseOpt x y) a = orElseOpt x (orElseOpt y a) := by
  cases x <;> rfl

theorem extractAll_fileContent (output p : String) :
    ∀ (es : List Entry) (fs : FS),
      (extractAll output es fs).1.fileContent p =
        es.foldl (writeUpd output p) (fs.fileContent p) := by
  intro es
  induction es with
  | nil => intro fs; rfl
  | cons e rest ih =>
    intro fs
    simp only [extractAll, eaw_no_err output e fs]
    rw [ih, List.foldl_cons]
    congr 1
    rw [eaw_fileContent]
    rfl

theorem foldl_writeUpd (output p : String) :
    ∀ (es : List Entry) (a : Option String),
      es.foldl (writeUpd output p) a =
        orElseOpt (es.foldl (writeUpd output p) none) a := by
  intro es
  induction es with
  | nil => intro a; rfl
  | cons e rest ih =>
    intro a
    simp only [List.foldl_cons]
    rw [ih (writeUpd output p a e), ih (writeUpd output p none e), orElseOpt_assoc]
    congr 1
    by_cases hw : e.isDir = false ∧ p = goJoin output e.name
    · simp [writeUpd, hw, orElseOpt]
    · simp [writeUpd, hw, orElseOpt]

/-! ## Concrete sample data for witnesses -/

/-- A filesystem with no directories and no files. -/
def emptyFS : FS := { isDir := fun _ => false, fileContent := fun _ => none }

/-- A file entry nested under a directory that the archive never lists. -/
def sampleFile : Entry := { name := "assets/readme.txt", isDir := false, mode := 420, content := "hello" }

/-- Another nested file entry, two directories deep. -/
def nestedFile : Entry := { name := "docs/guide/readme.md", isDir := false, mode := 493, content := "abc" }

/-- A filesystem where only the output path of a copy holds a file. -/
def fsOutOnly : FS :=
  { isDir := fun _ => false,
    fileContent := fun q => if q = "out.txt" then some "old" else none }

/-- A filesystem where both the input and the output path of a copy hold
files with different contents. -/
def fsInOut : FS :=
  { isDir := fun _ => false,
    fileContent := fun q =>
      if q = "in.txt" then some "new"
      else if q = "out.txt" then some "old" else none }

/-- First-run-then-second-run choice used by the idempotence proof. -/
theorem orElseOpt_idem (x a : Option String) :
    orElseOpt x (orElseOpt x a) = orElseOpt x a := by
  cases x <;> rfl

/-! ## Claim C7 -/

/-- Claim C7: extracting a file entry never fails with the
missing-parent error, whatever the starting filesystem is (in
particular, whether or not any directory entry for the parent was
processed earlier): the parent directories are MkdirAll-ed before the
output file is opened, so the open's parent check always passes.  The
same holds along a whole archive processed from any starting state. -/
theorem extract_file_never_missing_parent (output : String) (e : Entry)
    (es : List Entry) (fs : FS) (_h : e.isDir = false) :
    (extractAndWrite output e fs).2 ≠ some ExtractErr.missingParent ∧
    (extractAll output es fs).2 ≠ some ExtractErr.missingParent := by
  constructor
  · rw [eaw_no_err]
    exact fun hc => Option.noConfusion hc
  · rw [extractAll_no_err]
    exact fun hc => Option.noConfusion hc

theorem extract_file_never_missing_parent_witness :
    (extractAndWrite "/tmp/out" sampleFile emptyFS).2 ≠ some ExtractErr.missingParent ∧
    (extractAll "/tmp/out" [sampleFile, nestedFile] emptyFS).2 ≠ some ExtractErr.missingParent :=
  extract_file_never_missing_parent "/tmp/out" sampleFile [sampleFile, nestedFile] emptyFS rfl

/-! ## Claim C8 -/

/-- Claim C8: extraction is idempotent on file contents: both runs of
the same archive into the same destination succeed, and after the
second run every path stores exactly the content it stored after the
first run, because a file entry replaces (rather than appends to or
skips) the content at its output path. -/
theorem extract_idempotent_contents (output : String) (es : List Entry) (fs : FS) (p : String) :
    (extractAll output es fs).2 = none ∧
    (extractAll output es (extractAll output es fs).1).2 = none ∧
    (extractAll output es (extractAll output es fs).1).1.fileContent p =
      (extractAll output es fs).1.fileContent p := by
  refine ⟨extractAll_no_err output es fs, extractAll_no_err output es _, ?_⟩
  rw [extractAll_fileContent output p es (extractAll output es fs).1,
    extractAll_fileContent output p es fs,
    foldl_writeUpd output p es (es.foldl (writeUpd output p) (fs.fileContent p)),
    foldl_writeUpd output p es (fs.fileContent p)]
  exact orElseOpt_idem _ _

/-! ## Claim C10 -/

/-- Claim C10: for a file entry, the first filesystem operation of its
extraction is MkdirAll of the parent directory of the joined output
path with the entry's own mode bits, not a fixed directory default and
not the mode of any directory entry. -/
theorem file_parent_dirs_use_entry_mode (output : String) (e : Entry) (h : e.isDir = false) :
    (extractEntryOps output e).head? =
      some (FsOp.mkdirAllOp (dirname (goJoin output e.name)) e.mode) := by
  simp [extractEntryOps, h]

theorem file_parent_dirs_use_entry_mode_witness :
    (extractEntryOps "/opt/app" nestedFile).head? =
      some (FsOp.mkdirAllOp (dirname (goJoin "/opt/app" nestedFile.name)) nestedFile.mode) :=
  file_parent_dirs_use_entry_mode "/opt/app" nestedFile rfl

/-! ## Claim C9 -/

/-- Claim C9 counterexample: with a file present at the output path but
no file at the input path, Copy returns the input-open error instead of
the success the claim promises for every pair with an existing output
(Copy opens the input before it stats the output, main.go 167-182). -/
theorem copy_existing_output_can_fail :
    fsOutOnly.fileContent "out.txt" = some "old" ∧
    (Copy fsOutOnly "in.txt" "out.txt").2 = some CopyErr.openFailed :=
  ⟨rfl, rfl⟩

/-- Claim C9 as amended: an existing output file's content is never
changed by Copy, and whenever the input file can also be opened, Copy
with an existing output returns success with the filesystem untouched. -/
theorem copy_preserves_existing_output (fs : FS) (input output : String)
    (hout : fs.fileContent output ≠ none) :
    (Copy fs input output).1.fileContent output = fs.fileContent output ∧
    (fs.fileContent input ≠ none → Copy fs input output = (fs, none)) := by
  cases hin : fs.fileContent input with
  | none =>
    refine ⟨by simp [Copy, hin], fun h => absurd rfl h⟩
  | some c =>
    cases ho : fs.fileContent output with
    | none => exact absurd ho hout
    | some d => exact ⟨by simp [Copy, hin, ho], fun _ => by simp [Copy, hin, ho]⟩

theorem copy_preserves_existing_output_witness :
    (Copy fsInOut "in.txt" "out.txt").1.fileContent "out.txt" = fsInOut.fileContent "out.txt" ∧
    Copy fsInOut "in.txt" "out.txt" = (fsInOut, none) :=
  ⟨(copy_preserves_existing_output fsInOut "in.txt" "out.txt" (by decide)).1,
   (copy_preserves_existing_output fsInOut "in.txt" "out.txt" (by decide)).2 (by decide)⟩

/-! ## Claim C2 -/

/-- Claim C2 counterexample: on an OS outside the three supported
families the source resolver returns the username followed by the
application name as a relative path, which differs from the
specification's fallback of the application name under the current
working directory (here with working directory /work). -/
theorem installPath_default_not_cwd :
    GetInstallPath "plan9" "alice" = "alice/OpenRQ/" ∧
    specResolveInstallDir "plan9" "alice" "/work" = "/work/OpenRQ/" ∧
    GetInstallPath "plan9" "alice" ≠ specResolveInstallDir "plan9" "alice" "/work" := by
  decide

/-- Claim C2 as amended: the resolver is a pure function of the OS
identifier and the username; macOS yields the fixed /Applications path
with no username in it, windows and linux yield the documented per-user
paths, and every other OS identifier falls back to the relative path
username/appName/ (the username, then the application name), not to the
application name directly under the working directory. -/
theorem installPath_cases (u v os : String)
    (h1 : os ≠ "windows") (h2 : os ≠ "linux") (h3 : os ≠ "darwin") :
    GetInstallPath "darwin" u = "/Applications/OpenRQ/" ∧
    GetInstallPath "darwin" u = GetInstallPath "darwin" v ∧
    GetInstallPath "windows" u = "C:/Users/" ++ (u ++ "/AppData/Local/OpenRQ/") ∧
    GetInstallPath "linux" u = "/home/" ++ (u ++ "/.local/share/OpenRQ/") ∧
    GetInstallPath os u = u ++ "/OpenRQ/" := by
  refine ⟨rfl, rfl, ?_, ?_, ?_⟩
  · have h : GetInstallPath "windows" u =
        "C:/Users/" ++ u ++ "/AppData/Local/" ++ appName ++ "/" := rfl
    rw [h]
    simp only [strAssoc]
    rfl
  · have h : GetInstallPath "linux" u =
        "/home/" ++ u ++ "/.local/share/" ++ appName ++ "/" := rfl
    rw [h]
    simp only [strAssoc]
    rfl
  · simp only [GetInstallPath]
    rw [if_neg h1, if_neg h2, if_neg h3]
    simp only [strAssoc]
    rfl

theorem installPath_cases_witness :
    GetInstallPath "darwin" "alice" = "/Applications/OpenRQ/" ∧
    GetInstallPath "darwin" "alice" = GetInstallPath "darwin" "bob" ∧
    GetInstallPath "windows" "alice" = "C:/Users/" ++ ("alice" ++ "/AppData/Local/OpenRQ/") ∧
    GetInstallPath "linux" "alice" = "/home/" ++ ("alice" ++ "/.local/share/OpenRQ/") ∧
    GetInstallPath "plan9" "alice" = "alice" ++ "/OpenRQ/" :=
  installPath_cases "alice" "bob" "plan9" (by decide) (by decide) (by decide)

/-! ## Claim C3 -/

/-- Claim C3 counterexample: on windows, when the script-host execution
fails, CreateShortcut returns the error immediately and never attempts
to delete the temporary script file (main.go 262-265 return before the
os.Remove at 267), contradicting deletion on every path. -/
theorem shortcut_script_not_deleted_on_run_failure :
    (CreateShortcut "windows" ⟨true, false, true⟩).2 = false ∧
    SOp.removeScriptFile ∉ (CreateShortcut "windows" ⟨true, false, true⟩).1 := by
  decide

/-- Claim C3 as amended: on windows the deletion of the temporary
script file is attempted exactly when both the write of the script and
the script-host execution succeed; when the execution fails the
function returns without attempting the deletion. -/
theorem shortcut_script_deleted_iff_write_and_run_ok (env : ShortcutEnv) :
    SOp.removeScriptFile ∈ (CreateShortcut "windows" env).1 ↔
      env.writeOk = true ∧ env.runOk = true := by
  obtain ⟨w, r, rm⟩ := env
  cases w <;> cases r <;> cases rm <;> decide

/-! ## Claim C4 -/

/-- The linux shortcut location is a non-empty string. -/
theorem shortcutLoc_linux_pos (u : String) : 0 < (GetShortcutLocation "linux" u).length := by
  have h : GetShortcutLocation "linux" u =
      "/home/" ++ u ++ "/.local/share/applications/" ++
        String.mk (appName.data.map Char.toLower) ++ ".desktop" := rfl
  rw [h, strLen_append, strLen_append, strLen_append, strLen_append]
  have h6 : ("/home/" : String).length = 6 := rfl
  omega

/-- The windows shortcut location is a non-empty string. -/
theorem shortcutLoc_windows_pos (u : String) : 0 < (GetShortcutLocation "windows" u).length := by
  have h : GetShortcutLocation "windows" u =
      "C:/Users/" ++ u ++ "/AppData/Roaming/Microsoft/Windows/Start Menu/Programs/" ++
        appName ++ ".lnk" := rfl
  rw [h, strLen_append, strLen_append, strLen_append, strLen_append]
  have h9 : ("C:/Users/" : String).length = 9 := rfl
  omega

/-- Claim C4 counterexample: on darwin with nothing installed (no path
exists, in particular the install directory does not), Uninstall
returns success, not a not-found error: RemoveAll of a missing
directory is nil and the darwin shortcut path is empty, so the
os.Remove branch is skipped. -/
theorem uninstall_missing_dir_succeeds_on_darwin :
    noFiles (GetInstallPath "darwin" "alice") = false ∧
    Uninstall "darwin" "alice" noFiles = Except.ok () :=
  ⟨rfl, rfl⟩

/-- Claim C4 as amended: removing a missing install directory itself
succeeds (RemoveAll returns nil), so Uninstall fails exactly through
shortcut removal: on linux and windows, where the resolved shortcut
path is non-empty, Uninstall returns the not-found error whenever no
file exists at the shortcut path (in particular when nothing is
installed), and succeeds when the shortcut file exists; on darwin and
every other platform outside linux and windows the shortcut path is
empty and Uninstall succeeds even when the install directory does not
exist. -/
theorem uninstall_shortcut_behaviour (goos u : String) (present : String → Bool)
    (hg1 : goos ≠ "linux") (hg2 : goos ≠ "windows") :
    (present (GetShortcutLocation "linux" u) = false →
      Uninstall "linux" u present = Except.error GoErr.notFound) ∧
    (present (GetShortcutLocation "windows" u) = false →
      Uninstall "windows" u present = Except.error GoErr.notFound) ∧
    (present (GetShortcutLocation "linux" u) = true →
      Uninstall "linux" u present = Except.ok ()) ∧
    (present (GetShortcutLocation "windows" u) = true →
      Uninstall "windows" u present = Except.ok ()) ∧
    Uninstall "darwin" u present = Except.ok () ∧
    Uninstall goos u present = Except.ok () := by
  have hempty : GetShortcutLocation goos u = "" := by
    simp [GetShortcutLocation, hg1, hg2]
  refine ⟨?_, ?_, ?_, ?_, rfl, ?_⟩
  · intro h
    simp [Uninstall, goRemoveAll, goRemove, shortcutLoc_linux_pos u, h]
  · intro h
    simp [Uninstall, goRemoveAll, goRemove, shortcutLoc_windows_pos u, h]
  · intro h
    simp [Uninstall, goRemoveAll, goRemove, shortcutLoc_linux_pos u, h]
  · intro h
    simp [Uninstall, goRemoveAll, goRemove, shortcutLoc_windows_pos u, h]
  · simp [Uninstall, goRemoveAll, hempty]

theorem uninstall_shortcut_behaviour_witness :
    Uninstall "linux" "alice" noFiles = Except.error GoErr.notFound ∧
    Uninstall "windows" "alice" allFiles = Except.ok () ∧
    Uninstall "darwin" "alice" noFiles = Except.ok () ∧
    Uninstall "plan9" "alice" noFiles = Except.ok () :=
  ⟨(uninstall_shortcut_behaviour "plan9" "alice" noFiles (by decide) (by decide)).1 rfl,
   (uninstall_shortcut_behaviour "plan9" "alice" allFiles (by decide)
      (by decide)).2.2.2.1 rfl,
   (uninstall_shortcut_behaviour "plan9" "alice" noFiles (by decide) (by decide)).2.2.2.2.1,
   (uninstall_shortcut_behaviour "plan9" "alice" noFiles (by decide) (by decide)).2.2.2.2.2⟩

/-! ## Claim C5 -/

/-- Positions of the events of entry number i+k in the loop trace: the
progress report sits at even position 2k and the processing of the
entry right after it at 2k+1, provided all earlier entries succeeded
(the entry at position 2k+1 itself may fail). -/
theorem extractGo_get (ok : Nat → Bool) (n : Nat) :
    ∀ (k r i : Nat), k < r → (∀ j, i ≤ j → j < i + k → ok j = true) →
      (extractGo ok n r i).get? (2 * k) = some (ExtractEvent.progress (i + k + 1) n) ∧
      (extractGo ok n r i).get? (2 * k + 1) = some (ExtractEvent.process (i + k) (ok (i + k))) := by
  intro k
  induction k with
  | zero =>
    intro r i hk hprev
    cases r with
    | zero => exact absurd hk (Nat.not_lt_zero _)
    | succ r1 => simp [extractGo]
  | succ k ih =>
    intro r i hk hprev
    cases r with
    | zero => exact absurd hk (Nat.not_lt_zero _)
    | succ r1 =>
      have hoki : ok i = true := hprev i (Nat.le_refl i) (by omega)
      have hrec : ∀ j, i + 1 ≤ j → j < i + 1 + k → ok j = true :=
        fun j hj1 hj2 => hprev j (by omega) (by omega)
      have hih := ih r1 (i + 1) (by omega) hrec
      constructor
      · have e1 : 2 * (k + 1) = 2 * k + 1 + 1 := by ring
        have harg : i + 1 + k = i + (k + 1) := by omega
        rw [e1]
        simp only [extractGo, hoki, if_true, List.get?_cons_succ]
        rw [hih.1, harg]
      · have e2 : 2 * (k + 1) + 1 = 2 * k + 1 + 1 + 1 := by ring
        have harg : i + 1 + k = i + (k + 1) := by omega
        rw [e2]
        simp only [extractGo, hoki, if_true, List.get?_cons_succ]
        rw [hih.2, harg]

/-- Claim C5 counterexample: for a one-entry archive the trace of the
extraction loop is the progress report followed by the entry's
processing, so the processing of entry 0 never precedes its progress
report: progress.SetValue((i+1)/N) is called before extractAndWrite
(main.go 144 before 146), not after. -/
theorem progress_precedes_processing_refuted :
    extractTrace 1 allOk = [ExtractEvent.progress 1 1, ExtractEvent.process 0 true] ∧
    ¬ ∃ j k : Fin 2, j < k ∧
        (extractTrace 1 allOk).get? j.val = some (ExtractEvent.process 0 true) ∧
        (extractTrace 1 allOk).get? k.val = some (ExtractEvent.progress 1 1) := by
  decide

/-- Claim C5 as amended: the progress value is updated to (k+1)/N
immediately BEFORE entry k is processed, not after it; since the report
precedes the attempt, a failing entry still gets its progress report.
In the trace the report for entry k sits at position 2k and the
processing of entry k at position 2k+1, whether or not ok k holds. -/
theorem progress_reported_before_entry (n : Nat) (ok : Nat → Bool) (k : Nat)
    (hk : k < n) (hprev : ∀ j, j < k → ok j = true) :
    (extractTrace n ok).get? (2 * k) = some (ExtractEvent.progress (k + 1) n) ∧
    (extractTrace n ok).get? (2 * k + 1) = some (ExtractEvent.process k (ok k)) := by
  have h := extractGo_get ok n k n 0 hk (fun j hj1 hj2 => hprev j (by omega))
  simpa using h

theorem progress_reported_before_entry_witness :
    (extractTrace 1 allFail).get? (2 * 0) = some (ExtractEvent.progress (0 + 1) 1) ∧
    (extractTrace 1 allFail).get? (2 * 0 + 1) = some (ExtractEvent.process 0 (allFail 0)) :=
  progress_reported_before_entry 1 allFail 0 (by decide)
    (fun j hj => absurd hj (Nat.not_lt_zero j))

/-! ## Claim C6 -/

theorem fracDiv_le (n a b : Nat) (hab : a ≤ b) :
    ratLE (((a : Nat) : ℚ) / ((n : Nat) : ℚ)) (((b : Nat) : ℚ) / ((n : Nat) : ℚ)) := by
  unfold ratLE
  rcases Nat.eq_zero_or_pos n with h | h
  · subst h; simp
  · have hn : (0 : ℚ) < ((n : Nat) : ℚ) := by exact_mod_cast h
    rw [div_le_div_iff_of_pos_right hn]
    exact_mod_cast hab

theorem fracDiv_lt (n a b : Nat) (hn : 1 ≤ n) (hab : a < b) :
    ratLT (((a : Nat) : ℚ) / ((n : Nat) : ℚ)) (((b : Nat) : ℚ) / ((n : Nat) : ℚ)) := by
  unfold ratLT
  have hn0 : (0 : ℚ) < ((n : Nat) : ℚ) := by exact_mod_cast hn
  rw [div_lt_div_iff_of_pos_right hn0]
  exact_mod_cast hab

/-- On a stretch of entries that all succeed, the reported fractions
are exactly the sequence (i+1)/n, (i+2)/n, ... -/
theorem progressValues_extractGo (ok : Nat → Bool) (n : Nat) :
    ∀ (r i : Nat), (∀ j, i ≤ j → j < i + r → ok j = true) →
      progressValues (extractGo ok n r i) = fracSeq n r i := by
  intro r
  induction r with
  | zero => intro i _; rfl
  | succ r ih =>
    intro i h
    have hoki : ok i = true := h i (Nat.le_refl i) (by omega)
    have ihh := ih (i + 1) (fun j h1 h2 => h j (by omega) (by omega))
    simp only [extractGo, hoki, if_true]
    simp only [progressValues, List.filterMap_cons] at ihh ⊢
    rw [ihh]
    rfl

/-- The first reported fraction of a loop with at least one iteration
left is (i+1)/n, whether or not entry i succeeds. -/
theorem progressValues_head (ok : Nat → Bool) (n r i : Nat) :
    (progressValues (extractGo ok n (r + 1) i)).head? =
      some (((i + 1 : Nat) : ℚ) / ((n : Nat) : ℚ)) := by
  cases hoki : ok i <;> simp [extractGo, progressValues, List.filterMap_cons, hoki]

/-- In every run, successful or not, the reported fractions never
decrease. -/
theorem progressValues_chainLE (ok : Nat → Bool) (n : Nat) :
    ∀ (r i : Nat), List.Chain' ratLE (progressValues (extractGo ok n r i)) := by
  intro r
  induction r with
  | zero => intro i; simp [extractGo, progressValues]
  | succ r ih =>
    intro i
    cases hoki : ok i with
    | false => simp [extractGo, progressValues, List.filterMap_cons, hoki]
    | true =>
      simp only [extractGo, hoki, if_true, progressValues, List.filterMap_cons]
      rw [List.chain'_cons']
      constructor
      · intro b hb
        cases r with
        | zero => simp [extractGo] at hb
        | succ r1 =>
          have hh := progressValues_head ok n r1 (i + 1)
          simp only [progressValues] at hh
          rw [hh] at hb
          simp only [Option.mem_def, Option.some_inj] at hb
          rw [← hb]
          exact fracDiv_le n (i + 1) (i + 1 + 1) (by omega)
      · exact ih (i + 1)

/-- The fraction sequence is strictly increasing whenever n is at least
one. -/
theorem fracSeq_chainLT (n : Nat) (hn : 1 ≤ n) :
    ∀ (r i : Nat), List.Chain' ratLT (fracSeq n r i) := by
  intro r
  induction r with
  | zero => intro i; simp [fracSeq]
  | succ r ih =>
    intro i
    simp only [fracSeq]
    rw [List.chain'_cons']
    constructor
    · intro b hb
      cases r with
      | zero => simp [fracSeq] at hb
      | succ r1 =>
        simp only [fracSeq, List.head?_cons, Option.mem_def, Option.some_inj] at hb
        rw [← hb]
        exact fracDiv_lt n (i + 1) (i + 1 + 1) hn (by omega)
    · exact ih (i + 1)

/-- The last fraction of a non-empty fraction sequence. -/
theorem fracSeq_getLast (n : Nat) :
    ∀ (r i : Nat), (fracSeq n (r + 1) i).getLast? =
      some (((i + r + 1 : Nat) : ℚ) / ((n : Nat) : ℚ)) := by
  intro r
  induction r with
  | zero => intro i; rfl
  | succ r ih =>
    intro i
    have h1 : fracSeq n (r + 1 + 1) i =
        (((i + 1 : Nat) : ℚ) / ((n : Nat) : ℚ)) :: fracSeq n (r + 1) (i + 1) := rfl
    have h2 : fracSeq n (r + 1) (i + 1) =
        (((i + 2 : Nat) : ℚ) / ((n : Nat) : ℚ)) :: fracSeq n r (i + 2) := rfl
    rw [h1, h2, List.getLast?_cons_cons, ← h2, ih (i + 1)]
    rw [show (i + 1 + r + 1 : Nat) = (i + (r + 1) + 1 : Nat) from by omega]

/-- Claim C6: for an archive with n entries (n at least 1) whose
entries all extract successfully, the sequence of reported progress
fractions is exactly 1/n, 2/n, ..., n/n, it is strictly increasing, and
its last value is exactly 1; and in any run whatever (ok2 arbitrary,
including failing runs) the reported fractions are non-decreasing.
fracSeq n n 0 is the list 1/n, 2/n, ..., n/n. -/
theorem extract_progress_sequence (n : Nat) (ok ok2 : Nat → Bool) (hn : 1 ≤ n)
    (hok : ∀ i, i < n → ok i = true) :
    progressValues (extractTrace n ok) = fracSeq n n 0 ∧
    List.Chain' ratLT (progressValues (extractTrace n ok)) ∧
    (progressValues (extractTrace n ok)).getLast? = some 1 ∧
    List.Chain' ratLE (progressValues (extractTrace n ok2)) := by
  have hv : progressValues (extractTrace n ok) = fracSeq n n 0 :=
    progressValues_extractGo ok n n 0 (fun j h1 h2 => hok j (by omega))
  refine ⟨hv, ?_, ?_, progressValues_chainLE ok2 n n 0⟩
  · rw [hv]
    exact fracSeq_chainLT n hn n 0
  · rw [hv]
    obtain ⟨m, rfl⟩ : ∃ m, n = m + 1 := ⟨n - 1, by omega⟩
    rw [fracSeq_getLast (m + 1) m 0]
    rw [show (0 + m + 1 : Nat) = m + 1 from by omega]
    congr 1
    exact div_self (by exact_mod_cast Nat.succ_ne_zero m)

theorem extract_progress_sequence_witness :
    progressValues (extractTrace 2 allOk) = fracSeq 2 2 0 ∧
    List.Chain' ratLT (progressValues (extractTrace 2 allOk)) ∧
    (progressValues (extractTrace 2 allOk)).getLast? = some 1 ∧
    List.Chain' ratLE (progressValues (extractTrace 2 allFail)) :=
  extract_progress_sequence 2 allOk allFail (by decide) (fun i _ => rfl)

/-! ## Claim C1: splitting and cleaning lemmas -/

theorem splitSlashAux_append : ∀ (l1 l2 : List Char) (acc : List Char),
    splitSlashAux (l1 ++ '/' :: l2) acc = splitSlashAux l1 acc ++ splitSlashAux l2 [] := by
  intro l1
  induction l1 with
  | nil => intro l2 acc; simp [splitSlashAux]
  | cons c l1 ih =>
    intro l2 acc
    by_cases hc : c = '/'
    · subst hc; simp [splitSlashAux, ih]
    · simp [splitSlashAux, hc, ih]

theorem splitSlash_append (a b : String) :
    splitSlash (a ++ "/" ++ b) = splitSlash a ++ splitSlash b := by
  show splitSlashAux (a ++ "/" ++ b).data [] = _
  rw [strData_append, strData_append, List.append_assoc]
  exact splitSlashAux_append a.data b.data []

theorem splitSlashAux_no_slash : ∀ (l acc : List Char), '/' ∉ acc →
    ∀ c ∈ splitSlashAux l acc, '/' ∉ c.data := by
  intro l
  induction l with
  | nil =>
    intro acc hacc c hc
    have hs : c = String.mk acc.reverse := List.mem_singleton.mp hc
    subst hs
    intro hmem
    exact hacc (List.mem_reverse.mp hmem)
  | cons d l ih =>
    intro acc hacc c hc
    by_cases hd : d = '/'
    · subst hd
      have he : splitSlashAux ('/' :: l) acc = String.mk acc.reverse :: splitSlashAux l [] := rfl
      rw [he] at hc
      cases List.mem_cons.mp hc with
      | inl h =>
        subst h
        intro hmem
        exact hacc (List.mem_reverse.mp hmem)
      | inr h => exact ih [] (by simp) c h
    · have he : splitSlashAux (d :: l) acc = splitSlashAux l (d :: acc) := by
        simp [splitSlashAux, hd]
      rw [he] at hc
      refine ih (d :: acc) ?_ c hc
      intro hmem
      cases List.mem_cons.mp hmem with
      | inl h => exact hd h.symm
      | inr h => exact hacc h

theorem splitSlash_no_slash (s : String) : ∀ c ∈ splitSlash s, '/' ∉ c.data :=
  splitSlashAux_no_slash s.data [] (by simp)

theorem splitSlashAux_no_sep : ∀ (l acc : List Char), '/' ∉ l →
    splitSlashAux l acc = [String.mk (acc.reverse ++ l)] := by
  intro l
  induction l with
  | nil => intro acc _; simp [splitSlashAux]
  | cons c l ih =>
    intro acc h
    have hc : ¬ c = '/' := fun he => h (by rw [he]; exact List.mem_cons_self '/' l)
    simp only [splitSlashAux, if_neg hc]
    rw [ih (c :: acc) (fun hm => h (List.mem_cons_of_mem c hm))]
    simp [List.reverse_cons, List.append_assoc]

theorem splitSlash_single (c : String) (h : '/' ∉ c.data) : splitSlash c = [c] := by
  show splitSlashAux c.data [] = [c]
  rw [splitSlashAux_no_sep c.data [] h]
  cases c with
  | mk d => rfl

theorem splitSlash_foldl : ∀ (cs : List String) (a : String),
    (∀ x ∈ cs, '/' ∉ x.data) →
    splitSlash (cs.foldl (fun a b => a ++ "/" ++ b) a) = splitSlash a ++ cs := by
  intro cs
  induction cs with
  | nil => intro a _; simp
  | cons d cs ih =>
    intro a h
    simp only [List.foldl_cons]
    rw [ih (a ++ "/" ++ d) (fun x hx => h x (List.mem_cons_of_mem d hx)),
      splitSlash_append a d, splitSlash_single d (h d (List.mem_cons_self d cs))]
    simp

theorem splitSlash_render (c : String) (cs : List String)
    (h : ∀ x ∈ c :: cs, '/' ∉ x.data) :
    splitSlash (renderComps (c :: cs)) = c :: cs := by
  show splitSlash (cs.foldl (fun a b => a ++ "/" ++ b) c) = c :: cs
  rw [splitSlash_foldl cs c (fun x hx => h x (List.mem_cons_of_mem c hx)),
    splitSlash_single c (h c (List.mem_cons_self c cs))]
  rfl

theorem splitSlash_rooted (x : String) : splitSlash ("/" ++ x) = "" :: splitSlash x := by
  show splitSlashAux ("/" ++ x).data [] = "" :: splitSlashAux x.data []
  rw [strData_append]
  rfl

/-- Removes the empty fragments of an element list (the effect Clean
has on them). -/
def dropEmpties : List String → List String
  | [] => []
  | c :: cs => if c = "" then dropEmpties cs else c :: dropEmpties cs

theorem mem_dropEmpties : ∀ (cs : List String) (x : String),
    x ∈ dropEmpties cs → x ∈ cs ∧ x ≠ "" := by
  intro cs
  induction cs with
  | nil => intro x hx; exact absurd hx (List.not_mem_nil x)
  | cons c cs ih =>
    intro x hx
    by_cases hc : c = ""
    · rw [show dropEmpties (c :: cs) = dropEmpties cs from by simp [dropEmpties, hc]] at hx
      obtain ⟨h1, h2⟩ := ih x hx
      exact ⟨List.mem_cons_of_mem c h1, h2⟩
    · rw [show dropEmpties (c :: cs) = c :: dropEmpties cs from by simp [dropEmpties, hc]] at hx
      cases List.mem_cons.mp hx with
      | inl h => exact ⟨by rw [h]; exact List.mem_cons_self c cs, by rw [h]; exact hc⟩
      | inr h =>
        obtain ⟨h1, h2⟩ := ih x h
        exact ⟨List.mem_cons_of_mem c h1, h2⟩

theorem cleanFold_normal (rooted : Bool) : ∀ (cs acc : List String),
    (∀ c ∈ cs, c ≠ "" ∧ c ≠ "." ∧ c ≠ "..") →
    cs.foldl (cleanStep rooted) acc = cs.reverse ++ acc := by
  intro cs
  induction cs with
  | nil => intro acc _; simp
  | cons c cs ih =>
    intro acc h
    obtain ⟨h1, h2, h3⟩ := h c (List.mem_cons_self c cs)
    simp only [List.foldl_cons]
    rw [show cleanStep rooted acc c = c :: acc from by simp [cleanStep, h1, h2, h3],
      ih (c :: acc) (fun x hx => h x (List.mem_cons_of_mem c hx))]
    simp

theorem cleanComps_normal (rooted : Bool) (cs : List String)
    (h : ∀ c ∈ cs, c ≠ "" ∧ c ≠ "." ∧ c ≠ "..") : cleanComps rooted cs = cs := by
  unfold cleanComps
  rw [cleanFold_normal rooted cs [] h]
  simp

theorem cleanFold_noDots (rooted : Bool) : ∀ (cs acc : List String),
    (∀ c ∈ cs, c ≠ "." ∧ c ≠ "..") →
    cs.foldl (cleanStep rooted) acc = (dropEmpties cs).reverse ++ acc := by
  intro cs
  induction cs with
  | nil => intro acc _; simp [dropEmpties]
  | cons c cs ih =>
    intro acc h
    obtain ⟨h2, h3⟩ := h c (List.mem_cons_self c cs)
    have hrest := fun x hx => h x (List.mem_cons_of_mem c hx)
    by_cases h1 : c = ""
    · simp only [List.foldl_cons]
      rw [show cleanStep rooted acc c = acc from by simp [cleanStep, h1],
        ih acc hrest, show dropEmpties (c :: cs) = dropEmpties cs from by simp [dropEmpties, h1]]
    · simp only [List.foldl_cons]
      rw [show cleanStep rooted acc c = c :: acc from by simp [cleanStep, h1, h2, h3],
        ih (c :: acc) hrest, show dropEmpties (c :: cs) = c :: dropEmpties cs from by
          simp [dropEmpties, h1]]
      simp

theorem cleanComps_noDots (rooted : Bool) (cs : List String)
    (h : ∀ c ∈ cs, c ≠ "." ∧ c ≠ "..") : cleanComps rooted cs = dropEmpties cs := by
  unfold cleanComps
  rw [cleanFold_noDots rooted cs [] h]
  simp

theorem cleanFold_extends (rooted : Bool) : ∀ (cs acc : List String),
    (∀ c ∈ cs, c ≠ "..") →
    ∃ m : List String, cs.foldl (cleanStep rooted) acc = m ++ acc := by
  intro cs
  induction cs with
  | nil => intro acc _; exact ⟨[], rfl⟩
  | cons c cs ih =>
    intro acc h
    have hc : c ≠ ".." := h c (List.mem_cons_self c cs)
    have hrest : ∀ x ∈ cs, x ≠ ".." := fun x hx => h x (List.mem_cons_of_mem c hx)
    by_cases h1 : c = "" ∨ c = "."
    · simp only [List.foldl_cons]
      rw [show cleanStep rooted acc c = acc from by simp [cleanStep, h1]]
      exact ih acc hrest
    · simp only [List.foldl_cons]
      rw [show cleanStep rooted acc c = c :: acc from by simp [cleanStep, h1, hc]]
      obtain ⟨m, hm⟩ := ih (c :: acc) hrest
      exact ⟨m ++ [c], by rw [hm]; simp⟩

theorem cleanStep_subset (rooted : Bool) (acc : List String) (c : String) :
    ∀ y ∈ cleanStep rooted acc c, y ∈ c :: acc := by
  intro y hy
  unfold cleanStep at hy
  by_cases h1 : c = "" ∨ c = "."
  · rw [if_pos h1] at hy
    exact List.mem_cons_of_mem c hy
  · rw [if_neg h1] at hy
    by_cases h2 : c = ".."
    · rw [if_pos h2] at hy
      cases acc with
      | nil =>
        have hy2 : y ∈ (if rooted then ([] : List String) else [".."]) := hy
        cases hr : rooted with
        | true => rw [hr] at hy2; simp at hy2
        | false =>
          rw [hr] at hy2
          have hs : y = ".." := List.mem_singleton.mp (by simpa using hy2)
          rw [hs, ← h2]
          exact List.mem_cons_self c []
      | cons top rest =>
        have hy2 : y ∈ (if top = ".." then c :: top :: rest else rest) := hy
        by_cases h3 : top = ".."
        · rw [if_pos h3] at hy2
          exact hy2
        · rw [if_neg h3] at hy2
          exact List.mem_cons_of_mem c (List.mem_cons_of_mem top hy2)
    · rw [if_neg h2] at hy
      exact hy

theorem cleanFold_mem (rooted : Bool) : ∀ (cs acc : List String) (x : String),
    x ∈ cs.foldl (cleanStep rooted) acc → x ∈ acc ∨ x ∈ cs := by
  intro cs
  induction cs with
  | nil => intro acc x hx; exact Or.inl hx
  | cons c cs ih =>
    intro acc x hx
    cases ih (cleanStep rooted acc c) x hx with
    | inl h =>
      cases List.mem_cons.mp (cleanStep_subset rooted acc c x h) with
      | inl h2 => exact Or.inr (by rw [h2]; exact List.mem_cons_self c cs)
      | inr h2 => exact Or.inl h2
    | inr h => exact Or.inr (List.mem_cons_of_mem c h)

theorem cleanFold_rooted_normal : ∀ (cs acc : List String),
    (∀ c ∈ acc, c ≠ "" ∧ c ≠ "." ∧ c ≠ "..") →
    ∀ x ∈ cs.foldl (cleanStep true) acc, x ≠ "" ∧ x ≠ "." ∧ x ≠ ".." := by
  intro cs
  induction cs with
  | nil => intro acc hacc x hx; exact hacc x hx
  | cons c cs ih =>
    intro acc hacc x hx
    refine ih (cleanStep true acc c) ?_ x hx
    intro y hy
    unfold cleanStep at hy
    by_cases h1 : c = "" ∨ c = "."
    · rw [if_pos h1] at hy
      exact hacc y hy
    · rw [if_neg h1] at hy
      by_cases h2 : c = ".."
      · rw [if_pos h2] at hy
        cases acc with
        | nil => simp at hy
        | cons top rest =>
          have hy2 : y ∈ (if top = ".." then c :: top :: rest else rest) := hy
          by_cases h3 : top = ".."
          · exact absurd h3 (hacc top (List.mem_cons_self top rest)).2.2
          · rw [if_neg h3] at hy2
            exact hacc y (List.mem_cons_of_mem top hy2)
      · rw [if_neg h2] at hy
        cases List.mem_cons.mp hy with
        | inl h =>
          rw [h]
          push_neg at h1
          exact ⟨h1.1, h1.2, h2⟩
        | inr h => exact hacc y h

theorem isAbsPath_slash_append (x : String) : isAbsPath ("/" ++ x) = true := by
  have hd : ("/" ++ x).data = '/' :: x.data := strData_append "/" x
  unfold isAbsPath
  rw [hd]
  rfl

theorem isAbsPath_append_left (a b : String) (ha : isAbsPath a = true) :
    isAbsPath (a ++ b) = true := by
  cases a with
  | mk d =>
    cases d with
    | nil => simp [isAbsPath] at ha
    | cons c t =>
      have hc : c = '/' := by
        have := ha
        unfold isAbsPath at this
        exact of_decide_eq_true this
      have hd : (String.mk (c :: t) ++ b).data = c :: (t ++ b.data) := strData_append _ b
      unfold isAbsPath
      rw [hd, hc]
      rfl

/-- Claim C1 counterexample: the entry name "../evil" extracted to the
destination "/dest" is written to filepath.Join("/dest", "../evil"),
which Clean resolves to "/evil" — a path outside the destination tree.
Extract performs no sanitisation of ".." components (main.go 107), so
the claim that no entry causes a write outside the destination is
false. -/
theorem extract_path_escapes_dest :
    goJoin "/dest" "../evil" = "/evil" ∧
    isDescendant "/dest" (goJoin "/dest" "../evil") = false := by
  decide

/-- Claim C1 as amended: the path written for an entry is
filepath.Join(destination, entry name); for every rooted destination
whose elements contain no "." or ".." and every non-empty entry name
containing no ".." element, the joined path stays inside the
destination tree — but an entry name with ".." elements can escape it,
as the counterexample shows. -/
theorem extract_path_stays_in_dest (out name : String)
    (habs : isAbsPath out = true)
    (hout : ∀ c ∈ splitSlash out, c ≠ "." ∧ c ≠ "..")
    (hname : ∀ c ∈ splitSlash name, c ≠ "..")
    (hne : name ≠ "") :
    isDescendant out (goJoin out name) = true := by
  have hout_ne : out ≠ "" := by
    intro h
    rw [h] at habs
    simp [isAbsPath] at habs
  have hjoin : goJoin out name = goClean (out ++ "/" ++ name) := by
    simp [goJoin, hout_ne, hne]
  have habs1 : isAbsPath (out ++ "/") = true := isAbsPath_append_left out "/" habs
  have habs2 : isAbsPath (out ++ "/" ++ name) = true :=
    isAbsPath_append_left (out ++ "/") name habs1
  have hsplit : splitSlash (out ++ "/" ++ name) = splitSlash out ++ splitSlash name :=
    splitSlash_append out name
  have hclean : goClean (out ++ "/" ++ name) =
      "/" ++ renderComps (cleanComps true (splitSlash out ++ splitSlash name)) := by
    simp only [goClean, habs2, hsplit, if_true]
  have hAfold : (splitSlash out).foldl (cleanStep true) [] =
      (dropEmpties (splitSlash out)).reverse := by
    rw [cleanFold_noDots true (splitSlash out) [] hout]
    simp
  obtain ⟨m, hm⟩ :=
    cleanFold_extends true (splitSlash name) ((dropEmpties (splitSlash out)).reverse) hname
  have hR : cleanComps true (splitSlash out ++ splitSlash name) =
      dropEmpties (splitSlash out) ++ m.reverse := by
    unfold cleanComps
    rw [List.foldl_append, hAfold, hm]
    simp
  have hD : pathComps out = dropEmpties (splitSlash out) := by
    unfold pathComps
    rw [habs]
    exact cleanComps_noDots true (splitSlash out) hout
  have hnormal : ∀ x ∈ cleanComps true (splitSlash out ++ splitSlash name),
      x ≠ "" ∧ x ≠ "." ∧ x ≠ ".." := by
    intro x hx
    unfold cleanComps at hx
    exact cleanFold_rooted_normal (splitSlash out ++ splitSlash name) []
      (fun c hc => absurd hc (List.not_mem_nil c)) x (List.mem_reverse.mp hx)
  have hslashfree : ∀ x ∈ cleanComps true (splitSlash out ++ splitSlash name),
      '/' ∉ x.data := by
    intro x hx
    unfold cleanComps at hx
    cases cleanFold_mem true (splitSlash out ++ splitSlash name) [] x
        (List.mem_reverse.mp hx) with
    | inl h => exact absurd h (List.not_mem_nil x)
    | inr h =>
      cases List.mem_append.mp h with
      | inl h2 => exact splitSlash_no_slash out x h2
      | inr h2 => exact splitSlash_no_slash name x h2
  have hfinal : pathComps
      ("/" ++ renderComps (cleanComps true (splitSlash out ++ splitSlash name))) =
      cleanComps true (splitSlash out ++ splitSlash name) := by
    cases hcase : cleanComps true (splitSlash out ++ splitSlash name) with
    | nil => decide
    | cons c cs =>
      have hsf : ∀ x ∈ c :: cs, '/' ∉ x.data := by
        intro x hx
        rw [← hcase] at hx
        exact hslashfree x hx
      have hrs : splitSlash ("/" ++ renderComps (c :: cs)) = "" :: c :: cs := by
        rw [splitSlash_rooted, splitSlash_render c cs hsf]
      unfold pathComps
      rw [isAbsPath_slash_append, hrs]
      have hskip : cleanComps true ("" :: c :: cs) = cleanComps true (c :: cs) := rfl
      rw [hskip]
      exact cleanComps_normal true (c :: cs) (fun x hx => by
        rw [← hcase] at hx
        exact hnormal x hx)
  rw [hjoin, hclean]
  unfold isDescendant
  rw [hfinal, hD, hR, habs, isAbsPath_slash_append]
  simp [isInitSeg_append]

theorem extract_path_stays_in_dest_witness :
    isDescendant "/tmp/out/" (goJoin "/tmp/out/" "assets/readme.txt") = true :=
  extract_path_stays_in_dest "/tmp/out/" "assets/readme.txt" (by decide) (by decide)
    (by decide) (by decide)
